import Mathlib

/-!
Shallow embedding of the decode/round core of the `rug237` crate
(`src/lib.rs`): the FP237 format constants, the rounding-witness/extended
value data model, the decoder `FP237::decode`, the random sampler
`FP237::random_from_exp_range` (parametrised over the outcome of the random
draws), and the witness-propagating arithmetic wrappers.

An MPFR float of precision 237 is embedded through the decomposition
returned by `Float::to_integer_exp`: a sign bit, an absolute mantissa
`m : ℕ` and an exponent `e : ℤ` with value `(-1)^sign * m * 2^e`; for a
nonzero finite precision-237 float the mantissa has exactly 237 bits.
NaN and infinities are a separate constructor (`to_integer_exp` returns
`None` on them and `decode` panics, modelled as `Option.none`).
-/

set_option maxRecDepth 4000

namespace Rug237

/-- `P`: significand width of the target format (src/lib.rs:24). -/
def P : ℕ := 237

/-- `PM1 = P - 1` (src/lib.rs:25). -/
def PM1 : ℤ := 236

/-- `EMAX` (src/lib.rs:26). -/
def EMAX : ℤ := 262143

/-- `EMIN = 1 - EMAX` (src/lib.rs:27). -/
def EMIN : ℤ := 1 - EMAX

/-- `MIN_EXP_SUBNORMAL = EMIN - PM1` (src/lib.rs:28). -/
def MIN_EXP_SUBNORMAL : ℤ := EMIN - PM1

/-- Fuel-driven bit length: `bitsAux fuel n` is the number of binary digits
of `n`, provided `n ≤ fuel`. -/
def bitsAux : ℕ → ℕ → ℕ
  | 0, _ => 0
  | fuel + 1, n => if n = 0 then 0 else bitsAux fuel (n / 2) + 1

/-- Bit length of a natural number (`bits 0 = 0`, `bits 141 = 8`). -/
def bits (n : ℕ) : ℕ := bitsAux n n

/-- The magnitude carried by an `FP237` (the `rug::Float` field `f`),
through its `to_integer_exp` decomposition: `fin neg m e` is the finite
float with sign bit `neg`, absolute mantissa `m` and binary exponent `e`
(value `(-1)^neg * m * 2^e`); `nonfin` is NaN or an infinity. -/
inductive Mag where
  | fin (neg : Bool) (m : ℕ) (e : ℤ)
  | nonfin (neg : Bool)
  deriving DecidableEq

/-- `true` exactly on finite magnitudes (`to_integer_exp` returns `Some`). -/
def Mag.isFin : Mag → Bool
  | Mag.fin _ _ _ => true
  | Mag.nonfin _ => false

/-- The extended value `FP237 { f, o }`: a magnitude together with the
rounding witness `o : Ordering` (`Less`/`Equal`/`Greater` of the stored
value versus the exact result that produced it). -/
structure FP237 where
  mag : Mag
  o : Ordering
  deriving DecidableEq

/-- Mantissas of precision-237 floats have at most 237 bits; this is the
representation invariant every `FP237` built by the crate satisfies
(all its floats are created with `Float::with_val(P, ..)`). -/
def magBound : FP237 → Prop := fun v =>
  match v.mag with
  | Mag.fin _ m _ => m < 2 ^ 237
  | Mag.nonfin _ => True

/-- The `while i.is_even() { i >>= 1; e += 1 }` loop of `decode`
(src/lib.rs:143-147), driven by fuel; `fuel = m` always suffices. -/
def reduceOddAux : ℕ → ℕ → ℤ → ℕ × ℤ
  | 0, m, e => (m, e)
  | fuel + 1, m, e =>
      if m ≠ 0 ∧ m % 2 = 0 then reduceOddAux fuel (m / 2) (e + 1) else (m, e)

/-- Canonical shortest-odd form: halve the mantissa and bump the exponent
while the mantissa is even and nonzero (src/lib.rs:142-147). -/
def reduceOdd (m : ℕ) (e : ℤ) : ℕ × ℤ := reduceOddAux m m e

/-- The subnormal-forcing branch of `decode` (src/lib.rs:148-161): when the
exponent is below `MIN_EXP_SUBNORMAL`, shift the mantissa right, round with
the double-rounding tie-break `rem > tie || rem == tie && (o != Greater ||
i.is_odd())`, and pin the exponent at `MIN_EXP_SUBNORMAL`. -/
def subRound (o : Ordering) (m : ℕ) (e : ℤ) : ℕ × ℤ :=
  if e < MIN_EXP_SUBNORMAL then
    let shift := (MIN_EXP_SUBNORMAL - e).toNat
    let rem := m % 2 ^ shift
    let tie := 2 ^ (shift - 1)
    let q := m / 2 ^ shift
    (if tie < rem ∨ (rem = tie ∧ (o ≠ Ordering.gt ∨ q % 2 = 1)) then q + 1
     else q,
     MIN_EXP_SUBNORMAL)
  else (m, e)

/-- `FP237::decode` (src/lib.rs:133-172). The result is the target triple
`(sign, exponent, high 128 bits, low 128 bits)`; `none` models the panic
(`to_integer_exp` returning `None` on NaN/∞, or the `to_u128().unwrap()`
failing because the mantissa does not fit in 256 bits). -/
def decode (v : FP237) (reduce : Bool) : Option (ℕ × ℤ × ℕ × ℕ) :=
  match v with
  | ⟨Mag.nonfin _, _⟩ => none
  | ⟨Mag.fin neg m e, o⟩ =>
    let s : ℕ := if neg then 1 else 0
    if EMAX - PM1 < e then some (s, EMAX + 1, 0, 0)
    else
      let p := if reduce then reduceOdd m e else (m, e)
      let q := subRound o p.1 p.2
      if q.1 = 0 then some (s, 0, 0, 0)
      else if q.1 < 2 ^ 256 then some (s, q.2, q.1 / 2 ^ 128, q.1 % 2 ^ 128)
      else none

/-- `HI_HIDDEN_BIT = 1 << 108` (src/lib.rs:175). -/
def HI_HIDDEN_BIT : ℕ := 2 ^ 108

/-- `HI_MAX = HI_HIDDEN_BIT - 1` (src/lib.rs:176). -/
def HI_MAX : ℕ := HI_HIDDEN_BIT - 1

/-- `u128::leading_zeros` of a value `x < 2^128`. -/
def lz128 (x : ℕ) : ℕ := 128 - bits x

/-- Model of `Float::with_val_round(prec, c, Round::Nearest)` on a
nonnegative integer `c` (and, scaled by an exact power of two, on `c * 2^t`):
round to `prec` significant bits with round-to-nearest ties-to-even.
Returns the rounded value at full scale together with the MPFR ternary
(`Ordering` of the rounded value versus `c`). -/
def rnd (c : ℕ) (prec : ℕ) : ℕ × Ordering :=
  if bits c ≤ prec then (c, Ordering.eq)
  else if 2 ^ (bits c - prec - 1) < c % 2 ^ (bits c - prec)
      ∨ (c % 2 ^ (bits c - prec) = 2 ^ (bits c - prec - 1)
          ∧ c / 2 ^ (bits c - prec) % 2 = 1) then
    ((c / 2 ^ (bits c - prec) + 1) * 2 ^ (bits c - prec), Ordering.gt)
  else if c % 2 ^ (bits c - prec) = 0 then (c, Ordering.eq)
  else (c / 2 ^ (bits c - prec) * 2 ^ (bits c - prec), Ordering.lt)

/-- `to_integer_exp` decomposition of a precision-237 float whose value is
`c * 2^t`: the mantissa is scaled to exactly 237 bits (trailing zeros
included), the exponent adjusted accordingly. -/
def norm237 (c : ℕ) (t : ℤ) : ℕ × ℤ :=
  if c = 0 then (0, 0)
  else if bits c ≤ 237 then
    (c * 2 ^ (237 - bits c), t - (237 - (bits c : ℤ)))
  else (c / 2 ^ (bits c - 237), t + ((bits c : ℤ) - 237))

/-- `FP237::random_from_exp_range` (src/lib.rs:174-210), parametrised over
the outcome of the four random draws: `s ∈ {0,1}` the sign draw, `t` the
exponent draw (uniform in the requested range), `h ≤ HI_MAX` the high draw
and `l < 2^128` the low draw.  In the normal branch the hidden bit is added
and the exponent lowered by `PM1`; in the subnormal branch the significand
is materialised at the precision `msb` computed from the draws
(`128 - h.leading_zeros()` when `h != 0`, else `256 - l.leading_zeros()`).
The `t >= 0` path multiplies `c` by `Integer::from(2).pow(t)` = `2^t` and
rounds once at `P`; the `t < 0` path multiplies by
`Float::i_exp(2, t)` = `2 * 2^t` = `2^(t+1)` — one binary place higher —
and rounds once at `prec` (compare `Float::i_exp(1, -i)` for `2^-i` in
calc_atans.rs).  Scaling by a power of two is exact, so both paths are
`rnd c prec` scaled by `2^t2` with `t2 = t1 + 1` when `t1 < 0` and
`t2 = t1` otherwise.  The result is re-registered as a precision-237 float
(`norm237`), the sign applied afterwards (which leaves the ternary `o`
untouched). -/
def random_from_exp_range (s : ℕ) (t : ℤ) (h l : ℕ) : FP237 :=
  let normal := EMIN ≤ t
  let t1 := if normal then t - PM1 else t
  let h1 := if normal then h + HI_HIDDEN_BIT else h
  let prec := if normal then P else if h ≠ 0 then 128 - lz128 h else 256 - lz128 l
  let c := h1 * 2 ^ 128 + l
  let t2 := if t1 < 0 then t1 + 1 else t1
  let ro := rnd c prec
  let me := norm237 ro.1 t2
  ⟨Mag.fin (s == 1) me.1 me.2, ro.2⟩

/-- Rational value of a magnitude (`0` for NaN/∞, which carry no value). -/
def valM : Mag → ℚ
  | Mag.fin neg m e => (if neg then (-1 : ℚ) else 1) * (m : ℚ) * (2 : ℚ) ^ e
  | Mag.nonfin _ => 0

/-- The witness discipline of the claim: the stored ordering is
`Less`/`Equal`/`Greater` exactly as the stored value is below/equal
to/above the exact unrounded result. -/
def faithful (z : FP237) (exact : ℚ) : Prop :=
  (z.o = Ordering.lt ↔ valM z.mag < exact) ∧
  (z.o = Ordering.eq ↔ valM z.mag = exact) ∧
  (z.o = Ordering.gt ↔ exact < valM z.mag)

/-- Signed mantissa. -/
def sgnZ (neg : Bool) (m : ℕ) : ℤ := if neg then -(m : ℤ) else (m : ℤ)

/-- Model of `Float::with_val_round(P, x, Round::Nearest)` on the exact
dyadic value `M * 2^E`: round the magnitude to `P` bits, store the
precision-237 decomposition, record the MPFR ternary (flipped for negative
values, since the ternary reports rounded minus exact). -/
def roundP (M : ℤ) (E : ℤ) : FP237 :=
  let ro := rnd M.natAbs P
  let me := norm237 ro.1 E
  ⟨Mag.fin (decide (M < 0)) me.1 me.2,
   if M < 0 then ro.2.swap else ro.2⟩

/-- `impl Add for &FP237` (src/lib.rs:268-276): the exact sum, rounded once
to `P` with `Round::Nearest`, the ternary stored as the witness. -/
def FP237.add (x y : FP237) : FP237 :=
  match x.mag, y.mag with
  | Mag.fin n1 m1 e1, Mag.fin n2 m2 e2 =>
    let E := min e1 e2
    roundP (sgnZ n1 m1 * 2 ^ (e1 - E).toNat + sgnZ n2 m2 * 2 ^ (e2 - E).toNat) E
  | _, _ => ⟨Mag.nonfin false, Ordering.eq⟩

/-- `impl Sub for &FP237` (src/lib.rs:278-286). -/
def FP237.sub (x y : FP237) : FP237 :=
  match x.mag, y.mag with
  | Mag.fin n1 m1 e1, Mag.fin n2 m2 e2 =>
    let E := min e1 e2
    roundP (sgnZ n1 m1 * 2 ^ (e1 - E).toNat - sgnZ n2 m2 * 2 ^ (e2 - E).toNat) E
  | _, _ => ⟨Mag.nonfin false, Ordering.eq⟩

/-- `impl Mul for &FP237` (src/lib.rs:288-296). -/
def FP237.mul (x y : FP237) : FP237 :=
  match x.mag, y.mag with
  | Mag.fin n1 m1 e1, Mag.fin n2 m2 e2 =>
    roundP (sgnZ n1 m1 * sgnZ n2 m2) (e1 + e2)
  | _, _ => ⟨Mag.nonfin false, Ordering.eq⟩

/-- `FP237::fma` (src/lib.rs:97-101): `self * m + a` evaluated exactly
(rug fuses the incomplete product into `mpfr_fma`), rounded once. -/
def FP237.fma (x y a : FP237) : FP237 :=
  match x.mag, y.mag, a.mag with
  | Mag.fin n1 m1 e1, Mag.fin n2 m2 e2, Mag.fin n3 m3 e3 =>
    let E := min (e1 + e2) e3
    roundP (sgnZ n1 m1 * sgnZ n2 m2 * 2 ^ (e1 + e2 - E).toNat
              + sgnZ n3 m3 * 2 ^ (e3 - E).toNat) E
  | _, _, _ => ⟨Mag.nonfin false, Ordering.eq⟩

/-- `FP237::sos` (src/lib.rs:103-107): `self*self + other*other` via
`mul_add_mul` (`mpfr_fmma`), exact then rounded once. -/
def FP237.sos (x y : FP237) : FP237 :=
  match x.mag, y.mag with
  | Mag.fin _ m1 e1, Mag.fin _ m2 e2 =>
    let E := min (2 * e1) (2 * e2)
    roundP ((m1 : ℤ) ^ 2 * 2 ^ (2 * e1 - E).toNat
              + (m2 : ℤ) ^ 2 * 2 ^ (2 * e2 - E).toNat) E
  | _, _ => ⟨Mag.nonfin false, Ordering.eq⟩

/-- `FP237::sqrt` (src/lib.rs:90-95): `Self { f: self.f.sqrt(), o:
Ordering::Equal }`.  The square root itself is computed by the oracle
(MPFR, correctly rounded at precision `P`) — modelled as the parameter
`root` — but the code stores the witness `Equal` unconditionally,
discarding the rounding direction of the square root. -/
def FP237.sqrtFP (_x : FP237) (root : Mag) : FP237 := ⟨root, Ordering.eq⟩

/-- `impl Div for &FP237` (src/lib.rs:298-306): the exact quotient is
computed and rounded once at precision `P` by the oracle
(`Float::with_val_round(P, &x.f / &y.f, Round::Nearest)`); `rounded` and
`ternary` model the correctly-rounded value and MPFR ternary the oracle
returns, which the wrapper stores unchanged as magnitude and witness. -/
def FP237.divFP (_x _y : FP237) (rounded : Mag) (ternary : Ordering) : FP237 :=
  ⟨rounded, ternary⟩

/-- `impl Rem for &FP237` (src/lib.rs:308-316): the oracle's
correctly-rounded remainder and its ternary, stored unchanged. -/
def FP237.remFP (_x _y : FP237) (rounded : Mag) (ternary : Ordering) : FP237 :=
  ⟨rounded, ternary⟩

/-- `FP237::sin` (src/lib.rs:109-113): `sin_ref` evaluated by
`Float::with_val_round(P, .., Round::Nearest)`; the oracle's
correctly-rounded value and ternary are stored unchanged. -/
def FP237.sinFP (_x : FP237) (rounded : Mag) (ternary : Ordering) : FP237 :=
  ⟨rounded, ternary⟩

/-- `FP237::cos` (src/lib.rs:115-119): oracle pair stored unchanged. -/
def FP237.cosFP (_x : FP237) (rounded : Mag) (ternary : Ordering) : FP237 :=
  ⟨rounded, ternary⟩

/-- `FP237::tan` (src/lib.rs:121-125): oracle pair stored unchanged. -/
def FP237.tanFP (_x : FP237) (rounded : Mag) (ternary : Ordering) : FP237 :=
  ⟨rounded, ternary⟩

/-- `FP237::cot` (src/lib.rs:127-131): oracle pair stored unchanged. -/
def FP237.cotFP (_x : FP237) (rounded : Mag) (ternary : Ordering) : FP237 :=
  ⟨rounded, ternary⟩

/-- Modelled from the spec: the oracle parse of the decimal literal
"17.625" (`FP237::from_str`, src/lib.rs:216-226).  17.625 = 141 * 2^(-3)
has 8 significant bits, so rounding it to precision `P = 237` is exact
(witness `Equal`) and `subnormalize_ieee_round` is the identity in the
normal range; the precision-237 float stores the 237-bit mantissa
`141 * 2^229` at exponent `-232`. -/
def parsed_17_625 : FP237 := ⟨Mag.fin false (141 * 2 ^ 229) (-232), Ordering.eq⟩

/-- Modelled from the spec: the value 2^(-262378) constructed exactly with
witness `Equal` (the `test_min_pos_subnormal` construction `exp2` of
-262378); as a precision-237 float it stores mantissa `2^236` at exponent
`-262378 - 236 = -262614`. -/
def pow2_min_subnormal : FP237 := ⟨Mag.fin false (2 ^ 236) (-262614), Ordering.eq⟩

/-! ### Bit-length lemmas -/

theorem bitsAux_le_iff : ∀ (f n k : ℕ), n ≤ f → (bitsAux f n ≤ k ↔ n < 2 ^ k) := by
  intro f
  induction f with
  | zero =>
    intro n k hn
    interval_cases n
    simp [bitsAux, Nat.pos_pow_of_pos]
  | succ f ih =>
    intro n k hn
    by_cases h0 : n = 0
    · subst h0
      simp [bitsAux, Nat.pos_pow_of_pos]
    · rw [bitsAux, if_neg h0]
      cases k with
      | zero =>
        simp only [Nat.pow_zero, Nat.lt_one_iff]
        omega
      | succ k =>
        have hdiv : n / 2 ≤ f := by omega
        rw [Nat.succ_le_succ_iff, ih (n / 2) k hdiv, pow_succ]
        omega

theorem bits_le (n k : ℕ) : bits n ≤ k ↔ n < 2 ^ k :=
  bitsAux_le_iff n n k le_rfl

theorem lt_bits (n k : ℕ) : k < bits n ↔ 2 ^ k ≤ n := by
  rw [← not_iff_not, not_lt, not_le, bits_le]

theorem lt_pow_bits (n : ℕ) : n < 2 ^ bits n := (bits_le n (bits n)).mp le_rfl

theorem pow_bits_sub_one_le {n : ℕ} (hn : n ≠ 0) : 2 ^ (bits n - 1) ≤ n := by
  have h1 : 0 < bits n := (lt_bits n 0).mpr (by omega)
  exact (lt_bits n (bits n - 1)).mp (by omega)

theorem bits_eq_of {n k : ℕ} (h1 : 2 ^ k ≤ n) (h2 : n < 2 ^ (k + 1)) :
    bits n = k + 1 :=
  le_antisymm ((bits_le n (k + 1)).mpr h2) ((lt_bits n k).mpr h1)

theorem bits_mul_pow2 (u k : ℕ) (hu : u ≠ 0) :
    bits (u * 2 ^ k) = bits u + k := by
  have h1 : 2 ^ (bits u - 1) ≤ u := pow_bits_sub_one_le hu
  have h2 : u < 2 ^ bits u := lt_pow_bits u
  have hb : 0 < bits u := (lt_bits u 0).mpr (by omega)
  have hlo : 2 ^ (bits u + k - 1) ≤ u * 2 ^ k := by
    calc 2 ^ (bits u + k - 1) = 2 ^ (bits u - 1) * 2 ^ k := by
          rw [← pow_add]; congr 1; omega
      _ ≤ u * 2 ^ k := Nat.mul_le_mul_right _ h1
  have hhi : u * 2 ^ k < 2 ^ (bits u + k) := by
    calc u * 2 ^ k < 2 ^ bits u * 2 ^ k :=
          (Nat.mul_lt_mul_right (Nat.pos_pow_of_pos k (by norm_num))).mpr h2
      _ = 2 ^ (bits u + k) := by rw [← pow_add]
  have := bits_eq_of (k := bits u + k - 1) (by simpa using hlo) (by
    have : bits u + k - 1 + 1 = bits u + k := by omega
    rw [this]; exact hhi)
  omega

/-! ### reduceOdd lemmas -/

theorem reduceOddAux_le : ∀ (f m : ℕ) (e : ℤ), (reduceOddAux f m e).1 ≤ m := by
  intro f
  induction f with
  | zero => intro m e; simp [reduceOddAux]
  | succ f ih =>
    intro m e
    rw [reduceOddAux]
    split
    · exact le_trans (ih (m / 2) (e + 1)) (Nat.div_le_self m 2)
    · exact le_rfl

theorem le_reduceOddAux_exp : ∀ (f m : ℕ) (e : ℤ), e ≤ (reduceOddAux f m e).2 := by
  intro f
  induction f with
  | zero => intro m e; simp [reduceOddAux]
  | succ f ih =>
    intro m e
    rw [reduceOddAux]
    split
    · exact le_trans (by omega) (ih (m / 2) (e + 1))
    · exact le_rfl

theorem reduceOddAux_val :
    ∀ (f m : ℕ) (e : ℤ),
      (reduceOddAux f m e).1 * 2 ^ ((reduceOddAux f m e).2 - e).toNat = m := by
  intro f
  induction f with
  | zero => intro m e; simp [reduceOddAux]
  | succ f ih =>
    intro m e
    rw [reduceOddAux]
    split
    · rename_i hc
      have hrec := ih (m / 2) (e + 1)
      have hexp := le_reduceOddAux_exp f (m / 2) (e + 1)
      have htn : ((reduceOddAux f (m / 2) (e + 1)).2 - e).toNat
          = ((reduceOddAux f (m / 2) (e + 1)).2 - (e + 1)).toNat + 1 := by omega
      rw [htn, pow_succ, ← mul_assoc, hrec]
      omega
    · simp

theorem reduceOddAux_ne_zero {f m : ℕ} {e : ℤ} (hm : m ≠ 0) :
    (reduceOddAux f m e).1 ≠ 0 := by
  intro h
  have := reduceOddAux_val f m e
  rw [h] at this
  simp at this
  exact hm this.symm

theorem reduceOddAux_exp_le {f m : ℕ} {e : ℤ} (hm : m ≠ 0) (hb : m < 2 ^ 237) :
    (reduceOddAux f m e).2 ≤ e + 236 := by
  have hval := reduceOddAux_val f m e
  have hne := reduceOddAux_ne_zero (f := f) (e := e) hm
  have hexp := le_reduceOddAux_exp f m e
  have hpow : 2 ^ ((reduceOddAux f m e).2 - e).toNat ≤ m := by
    calc 2 ^ ((reduceOddAux f m e).2 - e).toNat
        ≤ (reduceOddAux f m e).1 * 2 ^ ((reduceOddAux f m e).2 - e).toNat :=
          Nat.le_mul_of_pos_left _ (Nat.pos_of_ne_zero hne)
      _ = m := hval
  have hlt : 2 ^ ((reduceOddAux f m e).2 - e).toNat < 2 ^ 237 := lt_of_le_of_lt hpow hb
  have : ((reduceOddAux f m e).2 - e).toNat < 237 :=
    (Nat.pow_lt_pow_iff_right (by norm_num)).mp hlt
  omega

/-! ### subRound lemmas -/

theorem subRound_fst_le (o : Ordering) (m : ℕ) (e : ℤ) :
    (subRound o m e).1 ≤ m + 1 := by
  rw [subRound]
  split
  · dsimp only
    split
    · have := Nat.div_le_self m (2 ^ (MIN_EXP_SUBNORMAL - e).toNat)
      omega
    · have := Nat.div_le_self m (2 ^ (MIN_EXP_SUBNORMAL - e).toNat)
      omega
  · omega

/-! ### rnd lemmas -/

theorem rnd_exact {c prec : ℕ} (h : bits c ≤ prec) : rnd c prec = (c, Ordering.eq) := by
  rw [rnd, if_pos h]

theorem bits_zero : bits 0 = 0 := rfl

theorem bits_pos {n : ℕ} (hn : n ≠ 0) : 0 < bits n :=
  (lt_bits n 0).mpr (by omega)

theorem rnd_imps (c prec : ℕ) :
    ((rnd c prec).2 = Ordering.lt → (rnd c prec).1 < c) ∧
    ((rnd c prec).2 = Ordering.eq → (rnd c prec).1 = c) ∧
    ((rnd c prec).2 = Ordering.gt → c < (rnd c prec).1) := by
  rw [rnd]
  by_cases h1 : bits c ≤ prec
  · rw [if_pos h1]
    refine ⟨fun h => ?_, fun _ => rfl, fun h => ?_⟩ <;> simp at h
  · rw [if_neg h1]
    have hpos : 0 < 2 ^ (bits c - prec) := Nat.pos_pow_of_pos _ (by norm_num)
    have hdm := Nat.div_add_mod c (2 ^ (bits c - prec))
    have hmlt := Nat.mod_lt c hpos
    by_cases h2 : 2 ^ (bits c - prec - 1) < c % 2 ^ (bits c - prec)
        ∨ (c % 2 ^ (bits c - prec) = 2 ^ (bits c - prec - 1)
            ∧ c / 2 ^ (bits c - prec) % 2 = 1)
    · rw [if_pos h2]
      refine ⟨fun h => by simp at h, fun h => by simp at h, fun _ => ?_⟩
      show c < (c / 2 ^ (bits c - prec) + 1) * 2 ^ (bits c - prec)
      have hexp : (c / 2 ^ (bits c - prec) + 1) * 2 ^ (bits c - prec)
          = 2 ^ (bits c - prec) * (c / 2 ^ (bits c - prec)) + 2 ^ (bits c - prec) := by
        ring
      omega
    · rw [if_neg h2]
      by_cases h3 : c % 2 ^ (bits c - prec) = 0
      · rw [if_pos h3]
        refine ⟨fun h => ?_, fun _ => rfl, fun h => ?_⟩ <;> simp at h
      · rw [if_neg h3]
        refine ⟨fun _ => ?_, fun h => by simp at h, fun h => by simp at h⟩
        show c / 2 ^ (bits c - prec) * 2 ^ (bits c - prec) < c
        have hexp : c / 2 ^ (bits c - prec) * 2 ^ (bits c - prec)
            = 2 ^ (bits c - prec) * (c / 2 ^ (bits c - prec)) := by
          ring
        omega

/-- Generic upgrade of the three one-way implications into iffs, by
trichotomy. -/
theorem ord_iffs {α : Type} [LinearOrder α] {v x : α} {o : Ordering}
    (h1 : o = Ordering.lt → v < x) (h2 : o = Ordering.eq → v = x)
    (h3 : o = Ordering.gt → x < v) :
    (o = Ordering.lt ↔ v < x) ∧ (o = Ordering.eq ↔ v = x) ∧
    (o = Ordering.gt ↔ x < v) := by
  cases o with
  | lt =>
    have hv := h1 rfl
    exact ⟨by simp [hv], by simp [ne_of_lt hv], by simp [not_lt_of_gt hv]⟩
  | eq =>
    have hv := h2 rfl
    exact ⟨by simp [hv], by simp [hv], by simp [hv]⟩
  | gt =>
    have hv := h3 rfl
    exact ⟨by simp [not_lt_of_gt hv], by simp [(ne_of_lt hv).symm], by simp [hv]⟩

theorem rnd_iffs (c prec : ℕ) :
    ((rnd c prec).2 = Ordering.lt ↔ (rnd c prec).1 < c) ∧
    ((rnd c prec).2 = Ordering.eq ↔ (rnd c prec).1 = c) ∧
    ((rnd c prec).2 = Ordering.gt ↔ c < (rnd c prec).1) :=
  ord_iffs (rnd_imps c prec).1 (rnd_imps c prec).2.1 (rnd_imps c prec).2.2

/-- The rounded value is representable in `prec` significant bits: its low
`bits - prec` bits are zero. -/
theorem rnd_div {c prec : ℕ} (hp : 0 < prec) :
    2 ^ (bits (rnd c prec).1 - prec) ∣ (rnd c prec).1 := by
  by_cases h1 : bits c ≤ prec
  · rw [rnd, if_pos h1]
    show 2 ^ (bits c - prec) ∣ c
    rw [Nat.sub_eq_zero_of_le h1, pow_zero]
    exact one_dvd c
  · have hc0 : c ≠ 0 := by
      intro h0
      rw [h0, bits_zero] at h1
      omega
    push_neg at h1
    have hqlt : c / 2 ^ (bits c - prec) < 2 ^ prec := by
      rw [Nat.div_lt_iff_lt_mul (Nat.pos_pow_of_pos _ (by norm_num)), ← pow_add]
      have he : prec + (bits c - prec) = bits c := by omega
      rw [he]
      exact lt_pow_bits c
    have hqge : 2 ^ (prec - 1) ≤ c / 2 ^ (bits c - prec) := by
      rw [Nat.le_div_iff_mul_le (Nat.pos_pow_of_pos _ (by norm_num)), ← pow_add]
      have he : prec - 1 + (bits c - prec) = bits c - 1 := by omega
      rw [he]
      exact pow_bits_sub_one_le hc0
    rw [rnd, if_neg (not_le.mpr h1)]
    by_cases h2 : 2 ^ (bits c - prec - 1) < c % 2 ^ (bits c - prec)
        ∨ (c % 2 ^ (bits c - prec) = 2 ^ (bits c - prec - 1)
            ∧ c / 2 ^ (bits c - prec) % 2 = 1)
    · rw [if_pos h2]
      show 2 ^ (bits ((c / 2 ^ (bits c - prec) + 1) * 2 ^ (bits c - prec)) - prec)
          ∣ (c / 2 ^ (bits c - prec) + 1) * 2 ^ (bits c - prec)
      have hb : bits ((c / 2 ^ (bits c - prec) + 1) * 2 ^ (bits c - prec))
          = bits (c / 2 ^ (bits c - prec) + 1) + (bits c - prec) :=
        bits_mul_pow2 (c / 2 ^ (bits c - prec) + 1) (bits c - prec) (by simp)
      rw [hb]
      by_cases hcarry : c / 2 ^ (bits c - prec) + 1 = 2 ^ prec
      · rw [hcarry, ← pow_add]
        rw [hcarry] at hb
        have hbp : bits (2 ^ prec) = prec + 1 :=
          bits_eq_of le_rfl (Nat.pow_lt_pow_succ (by norm_num))
        rw [hbp] at hb
        exact pow_dvd_pow 2 (by omega)
      · have hble : bits (c / 2 ^ (bits c - prec) + 1) ≤ prec :=
          (bits_le _ _).mpr (by omega)
        exact Dvd.dvd.mul_left (pow_dvd_pow 2 (by omega)) _
    · rw [if_neg h2]
      have hqne : c / 2 ^ (bits c - prec) ≠ 0 := by
        have : 0 < 2 ^ (prec - 1) := Nat.pos_pow_of_pos _ (by norm_num)
        omega
      have hble : bits (c / 2 ^ (bits c - prec)) ≤ prec := (bits_le _ _).mpr hqlt
      by_cases h3 : c % 2 ^ (bits c - prec) = 0
      · rw [if_pos h3]
        show 2 ^ (bits c - prec) ∣ c
        exact Nat.dvd_of_mod_eq_zero h3
      · rw [if_neg h3]
        show 2 ^ (bits (c / 2 ^ (bits c - prec) * 2 ^ (bits c - prec)) - prec)
            ∣ c / 2 ^ (bits c - prec) * 2 ^ (bits c - prec)
        rw [bits_mul_pow2 (c / 2 ^ (bits c - prec)) (bits c - prec) hqne]
        exact Dvd.dvd.mul_left (pow_dvd_pow 2 (by omega)) _

/-! ### norm237 and value lemmas -/

theorem two_q_ne : (2 : ℚ) ≠ 0 := by norm_num

theorem norm237_val (c : ℕ) (t : ℤ) (hdvd : 2 ^ (bits c - 237) ∣ c) :
    ((norm237 c t).1 : ℚ) * (2 : ℚ) ^ (norm237 c t).2 = (c : ℚ) * (2 : ℚ) ^ t := by
  rw [norm237]
  by_cases h0 : c = 0
  · simp [h0]
  · rw [if_neg h0]
    by_cases hle : bits c ≤ 237
    · rw [if_pos hle]
      dsimp only
      push_cast
      rw [mul_assoc, ← zpow_natCast (2 : ℚ) (237 - bits c), ← zpow_add₀ two_q_ne]
      congr 2
      omega
    · rw [if_neg hle]
      dsimp only
      push_neg at hle
      have hbz : t + ((bits c : ℤ) - 237) = t + ((bits c - 237 : ℕ) : ℤ) := by
        omega
      rw [hbz]
      generalize hk : bits c - 237 = k at hdvd ⊢
      obtain ⟨d, hd⟩ := hdvd
      have hcd : c / 2 ^ k = d := by
        rw [hd]
        exact Nat.mul_div_cancel_left d (Nat.pos_pow_of_pos _ (by norm_num))
      rw [hcd, hd]
      push_cast
      rw [zpow_add₀ two_q_ne, ← zpow_natCast (2 : ℚ) k]
      ring

theorem sgn_val (n : Bool) (m : ℕ) (e : ℤ) :
    valM (Mag.fin n m e) = ((sgnZ n m : ℤ) : ℚ) * (2 : ℚ) ^ e := by
  cases n <;> simp [valM, sgnZ]

theorem align (A E e : ℤ) (h : E ≤ e) :
    ((A * 2 ^ (e - E).toNat : ℤ) : ℚ) * (2 : ℚ) ^ E = (A : ℚ) * (2 : ℚ) ^ e := by
  push_cast
  rw [mul_assoc, ← zpow_natCast (2 : ℚ) (e - E).toNat, ← zpow_add₀ two_q_ne]
  congr 2
  omega

theorem val_roundP (M E : ℤ) :
    valM (roundP M E).mag
      = (if M < 0 then (-1 : ℚ) else 1) * ((rnd M.natAbs P).1 : ℚ) * (2 : ℚ) ^ E := by
  rw [roundP]
  dsimp only
  rw [valM]
  have hdvd : 2 ^ (bits (rnd M.natAbs P).1 - 237) ∣ (rnd M.natAbs P).1 :=
    rnd_div (by rw [P]; norm_num)
  have hval := norm237_val (rnd M.natAbs P).1 E hdvd
  rcases lt_or_ge M 0 with hM | hM
  · rw [if_pos hM, if_pos (show decide (M < 0) = true from decide_eq_true hM)]
    rw [mul_assoc, mul_assoc, hval]
  · have hnlt : ¬(M < 0) := not_lt.mpr hM
    rw [if_neg hnlt,
      if_neg (show ¬decide (M < 0) = true from by simp [decide_eq_true_eq, hnlt])]
    rw [one_mul, one_mul]
    exact hval

theorem roundP_faithful (M E : ℤ) :
    faithful (roundP M E) ((M : ℚ) * (2 : ℚ) ^ E) := by
  have hvr := val_roundP M E
  have hiffs := rnd_iffs M.natAbs P
  have hpow : (0 : ℚ) < (2 : ℚ) ^ E := zpow_pos (by norm_num) E
  have habs : ((M.natAbs : ℕ) : ℚ) = |(M : ℚ)| := by
    rw [Int.cast_natAbs, Int.cast_abs]
  rw [faithful]
  have ho : (roundP M E).o = if M < 0 then (rnd M.natAbs P).2.swap
      else (rnd M.natAbs P).2 := rfl
  set r := (rnd M.natAbs P).1 with hr
  set ro := (rnd M.natAbs P).2 with hro
  rcases lt_or_ge M 0 with hM | hM
  · -- negative: value = -(r * 2^E), exact = M * 2^E = -(natAbs * 2^E)
    have hMv : (M : ℚ) = -((M.natAbs : ℚ)) := by
      rw [habs, abs_of_neg (by exact_mod_cast hM)]
      ring
    rw [hvr, ho, if_pos hM, if_pos hM, hMv]
    have h1 : ro.swap = Ordering.lt ↔ ro = Ordering.gt := by
      cases ro <;> simp [Ordering.swap]
    have h2 : ro.swap = Ordering.eq ↔ ro = Ordering.eq := by
      cases ro <;> simp [Ordering.swap]
    have h3 : ro.swap = Ordering.gt ↔ ro = Ordering.lt := by
      cases ro <;> simp [Ordering.swap]
    refine ⟨?_, ?_, ?_⟩
    · rw [h1, hiffs.2.2]
      constructor
      · intro hlt
        have : ((M.natAbs : ℚ)) < (r : ℚ) := by exact_mod_cast hlt
        nlinarith
      · intro hlt
        have : ((M.natAbs : ℚ)) < (r : ℚ) := by nlinarith
        exact_mod_cast this
    · rw [h2, hiffs.2.1]
      constructor
      · intro heq
        have : ((r : ℕ) : ℚ) = ((M.natAbs : ℚ)) := by exact_mod_cast heq
        nlinarith
      · intro heq
        have : ((r : ℕ) : ℚ) = ((M.natAbs : ℚ)) := by nlinarith
        exact_mod_cast this
    · rw [h3, hiffs.1]
      constructor
      · intro hlt
        have : (r : ℚ) < ((M.natAbs : ℚ)) := by exact_mod_cast hlt
        nlinarith
      · intro hlt
        have : (r : ℚ) < ((M.natAbs : ℚ)) := by nlinarith
        exact_mod_cast this
  · -- nonnegative
    have hMv : (M : ℚ) = ((M.natAbs : ℚ)) := by
      rw [habs, abs_of_nonneg (by exact_mod_cast hM)]
    have hnlt : ¬(M < 0) := not_lt.mpr hM
    rw [hvr, ho, if_neg hnlt, if_neg hnlt, hMv, one_mul]
    refine ⟨?_, ?_, ?_⟩
    · rw [hiffs.1]
      constructor
      · intro hlt
        have : (r : ℚ) < ((M.natAbs : ℚ)) := by exact_mod_cast hlt
        nlinarith
      · intro hlt
        have : (r : ℚ) < ((M.natAbs : ℚ)) := by nlinarith
        exact_mod_cast this
    · rw [hiffs.2.1]
      constructor
      · intro heq
        have : ((r : ℕ) : ℚ) = ((M.natAbs : ℚ)) := by exact_mod_cast heq
        nlinarith
      · intro heq
        have : ((r : ℕ) : ℚ) = ((M.natAbs : ℚ)) := by nlinarith
        exact_mod_cast this
    · rw [hiffs.2.2]
      constructor
      · intro hlt
        have : ((M.natAbs : ℚ)) < (r : ℚ) := by exact_mod_cast hlt
        nlinarith
      · intro hlt
        have : ((M.natAbs : ℚ)) < (r : ℚ) := by nlinarith
        exact_mod_cast this

/-! ### Per-operator witness faithfulness -/

theorem add_faithful (n1 : Bool) (m1 : ℕ) (e1 : ℤ) (o1 : Ordering)
    (n2 : Bool) (m2 : ℕ) (e2 : ℤ) (o2 : Ordering) :
    faithful (FP237.add ⟨Mag.fin n1 m1 e1, o1⟩ ⟨Mag.fin n2 m2 e2, o2⟩)
      (valM (Mag.fin n1 m1 e1) + valM (Mag.fin n2 m2 e2)) := by
  have hfa := roundP_faithful
    (sgnZ n1 m1 * 2 ^ (e1 - min e1 e2).toNat
      + sgnZ n2 m2 * 2 ^ (e2 - min e1 e2).toNat) (min e1 e2)
  have hexact :
      ((sgnZ n1 m1 * 2 ^ (e1 - min e1 e2).toNat
          + sgnZ n2 m2 * 2 ^ (e2 - min e1 e2).toNat : ℤ) : ℚ)
          * (2 : ℚ) ^ (min e1 e2)
        = valM (Mag.fin n1 m1 e1) + valM (Mag.fin n2 m2 e2) := by
    rw [Int.cast_add, add_mul, align (sgnZ n1 m1) (min e1 e2) e1 (min_le_left e1 e2),
      align (sgnZ n2 m2) (min e1 e2) e2 (min_le_right e1 e2), sgn_val, sgn_val]
  show faithful (roundP (sgnZ n1 m1 * 2 ^ (e1 - min e1 e2).toNat
      + sgnZ n2 m2 * 2 ^ (e2 - min e1 e2).toNat) (min e1 e2)) _
  rw [← hexact]
  exact hfa

theorem sub_faithful (n1 : Bool) (m1 : ℕ) (e1 : ℤ) (o1 : Ordering)
    (n2 : Bool) (m2 : ℕ) (e2 : ℤ) (o2 : Ordering) :
    faithful (FP237.sub ⟨Mag.fin n1 m1 e1, o1⟩ ⟨Mag.fin n2 m2 e2, o2⟩)
      (valM (Mag.fin n1 m1 e1) - valM (Mag.fin n2 m2 e2)) := by
  have hfa := roundP_faithful
    (sgnZ n1 m1 * 2 ^ (e1 - min e1 e2).toNat
      - sgnZ n2 m2 * 2 ^ (e2 - min e1 e2).toNat) (min e1 e2)
  have hexact :
      ((sgnZ n1 m1 * 2 ^ (e1 - min e1 e2).toNat
          - sgnZ n2 m2 * 2 ^ (e2 - min e1 e2).toNat : ℤ) : ℚ)
          * (2 : ℚ) ^ (min e1 e2)
        = valM (Mag.fin n1 m1 e1) - valM (Mag.fin n2 m2 e2) := by
    rw [Int.cast_sub, sub_mul, align (sgnZ n1 m1) (min e1 e2) e1 (min_le_left e1 e2),
      align (sgnZ n2 m2) (min e1 e2) e2 (min_le_right e1 e2), sgn_val, sgn_val]
  show faithful (roundP (sgnZ n1 m1 * 2 ^ (e1 - min e1 e2).toNat
      - sgnZ n2 m2 * 2 ^ (e2 - min e1 e2).toNat) (min e1 e2)) _
  rw [← hexact]
  exact hfa

theorem mul_faithful (n1 : Bool) (m1 : ℕ) (e1 : ℤ) (o1 : Ordering)
    (n2 : Bool) (m2 : ℕ) (e2 : ℤ) (o2 : Ordering) :
    faithful (FP237.mul ⟨Mag.fin n1 m1 e1, o1⟩ ⟨Mag.fin n2 m2 e2, o2⟩)
      (valM (Mag.fin n1 m1 e1) * valM (Mag.fin n2 m2 e2)) := by
  have hfa := roundP_faithful (sgnZ n1 m1 * sgnZ n2 m2) (e1 + e2)
  have hexact : ((sgnZ n1 m1 * sgnZ n2 m2 : ℤ) : ℚ) * (2 : ℚ) ^ (e1 + e2)
      = valM (Mag.fin n1 m1 e1) * valM (Mag.fin n2 m2 e2) := by
    rw [sgn_val, sgn_val, Int.cast_mul, zpow_add₀ two_q_ne]
    ring
  show faithful (roundP (sgnZ n1 m1 * sgnZ n2 m2) (e1 + e2)) _
  rw [← hexact]
  exact hfa

theorem fma_faithful (n1 : Bool) (m1 : ℕ) (e1 : ℤ) (o1 : Ordering)
    (n2 : Bool) (m2 : ℕ) (e2 : ℤ) (o2 : Ordering)
    (n3 : Bool) (m3 : ℕ) (e3 : ℤ) (o3 : Ordering) :
    faithful
      (FP237.fma ⟨Mag.fin n1 m1 e1, o1⟩ ⟨Mag.fin n2 m2 e2, o2⟩ ⟨Mag.fin n3 m3 e3, o3⟩)
      (valM (Mag.fin n1 m1 e1) * valM (Mag.fin n2 m2 e2) + valM (Mag.fin n3 m3 e3)) := by
  have hfa := roundP_faithful
    (sgnZ n1 m1 * sgnZ n2 m2 * 2 ^ (e1 + e2 - min (e1 + e2) e3).toNat
      + sgnZ n3 m3 * 2 ^ (e3 - min (e1 + e2) e3).toNat) (min (e1 + e2) e3)
  have hexact :
      ((sgnZ n1 m1 * sgnZ n2 m2 * 2 ^ (e1 + e2 - min (e1 + e2) e3).toNat
          + sgnZ n3 m3 * 2 ^ (e3 - min (e1 + e2) e3).toNat : ℤ) : ℚ)
          * (2 : ℚ) ^ (min (e1 + e2) e3)
        = valM (Mag.fin n1 m1 e1) * valM (Mag.fin n2 m2 e2)
            + valM (Mag.fin n3 m3 e3) := by
    rw [Int.cast_add, add_mul,
      align (sgnZ n1 m1 * sgnZ n2 m2) (min (e1 + e2) e3) (e1 + e2)
        (min_le_left (e1 + e2) e3),
      align (sgnZ n3 m3) (min (e1 + e2) e3) e3 (min_le_right (e1 + e2) e3),
      sgn_val, sgn_val, sgn_val, Int.cast_mul, zpow_add₀ two_q_ne]
    ring
  show faithful (roundP
    (sgnZ n1 m1 * sgnZ n2 m2 * 2 ^ (e1 + e2 - min (e1 + e2) e3).toNat
      + sgnZ n3 m3 * 2 ^ (e3 - min (e1 + e2) e3).toNat) (min (e1 + e2) e3)) _
  rw [← hexact]
  exact hfa

theorem sos_faithful (n1 : Bool) (m1 : ℕ) (e1 : ℤ) (o1 : Ordering)
    (n2 : Bool) (m2 : ℕ) (e2 : ℤ) (o2 : Ordering) :
    faithful (FP237.sos ⟨Mag.fin n1 m1 e1, o1⟩ ⟨Mag.fin n2 m2 e2, o2⟩)
      (valM (Mag.fin n1 m1 e1) ^ 2 + valM (Mag.fin n2 m2 e2) ^ 2) := by
  have hfa := roundP_faithful
    ((m1 : ℤ) ^ 2 * 2 ^ (2 * e1 - min (2 * e1) (2 * e2)).toNat
      + (m2 : ℤ) ^ 2 * 2 ^ (2 * e2 - min (2 * e1) (2 * e2)).toNat)
    (min (2 * e1) (2 * e2))
  have hsgn1 : ((sgnZ n1 m1 : ℤ) : ℚ) ^ 2 = (((m1 : ℤ) ^ 2 : ℤ) : ℚ) := by
    cases n1 with
    | false => push_cast [sgnZ]; ring
    | true => push_cast [sgnZ]; rw [if_pos rfl]; ring
  have hsgn2 : ((sgnZ n2 m2 : ℤ) : ℚ) ^ 2 = (((m2 : ℤ) ^ 2 : ℤ) : ℚ) := by
    cases n2 with
    | false => push_cast [sgnZ]; ring
    | true => push_cast [sgnZ]; rw [if_pos rfl]; ring
  have hsq1 : valM (Mag.fin n1 m1 e1) ^ 2
      = (((m1 : ℤ) ^ 2 : ℤ) : ℚ) * (2 : ℚ) ^ (2 * e1) := by
    have h2e : (2 : ℚ) ^ (2 * e1) = (2 : ℚ) ^ e1 * (2 : ℚ) ^ e1 := by
      rw [two_mul, zpow_add₀ two_q_ne]
    rw [sgn_val, h2e, mul_pow, hsgn1]
    ring
  have hsq2 : valM (Mag.fin n2 m2 e2) ^ 2
      = (((m2 : ℤ) ^ 2 : ℤ) : ℚ) * (2 : ℚ) ^ (2 * e2) := by
    have h2e : (2 : ℚ) ^ (2 * e2) = (2 : ℚ) ^ e2 * (2 : ℚ) ^ e2 := by
      rw [two_mul, zpow_add₀ two_q_ne]
    rw [sgn_val, h2e, mul_pow, hsgn2]
    ring
  have hexact :
      (((m1 : ℤ) ^ 2 * 2 ^ (2 * e1 - min (2 * e1) (2 * e2)).toNat
          + (m2 : ℤ) ^ 2 * 2 ^ (2 * e2 - min (2 * e1) (2 * e2)).toNat : ℤ) : ℚ)
          * (2 : ℚ) ^ (min (2 * e1) (2 * e2))
        = valM (Mag.fin n1 m1 e1) ^ 2 + valM (Mag.fin n2 m2 e2) ^ 2 := by
    rw [Int.cast_add, add_mul,
      align ((m1 : ℤ) ^ 2) (min (2 * e1) (2 * e2)) (2 * e1)
        (min_le_left (2 * e1) (2 * e2)),
      align ((m2 : ℤ) ^ 2) (min (2 * e1) (2 * e2)) (2 * e2)
        (min_le_right (2 * e1) (2 * e2)), hsq1, hsq2]
  show faithful (roundP
    ((m1 : ℤ) ^ 2 * 2 ^ (2 * e1 - min (2 * e1) (2 * e2)).toNat
      + (m2 : ℤ) ^ 2 * 2 ^ (2 * e2 - min (2 * e1) (2 * e2)).toNat)
    (min (2 * e1) (2 * e2))) _
  rw [← hexact]
  exact hfa

/-! ### decode unfolding and pipeline lemmas -/

/-- Unfolding equation for `decode` on a finite magnitude. -/
theorem decode_fin (neg : Bool) (m : ℕ) (e : ℤ) (o : Ordering) (r : Bool) :
    decode ⟨Mag.fin neg m e, o⟩ r
      = if EMAX - PM1 < e then some (if neg then 1 else 0, EMAX + 1, 0, 0)
        else if (subRound o (if r then reduceOdd m e else (m, e)).1
            (if r then reduceOdd m e else (m, e)).2).1 = 0 then
          some (if neg then 1 else 0, 0, 0, 0)
        else if (subRound o (if r then reduceOdd m e else (m, e)).1
            (if r then reduceOdd m e else (m, e)).2).1 < 2 ^ 256 then
          some (if neg then 1 else 0,
            (subRound o (if r then reduceOdd m e else (m, e)).1
              (if r then reduceOdd m e else (m, e)).2).2,
            (subRound o (if r then reduceOdd m e else (m, e)).1
              (if r then reduceOdd m e else (m, e)).2).1 / 2 ^ 128,
            (subRound o (if r then reduceOdd m e else (m, e)).1
              (if r then reduceOdd m e else (m, e)).2).1 % 2 ^ 128)
        else none := rfl

theorem decode_nonfin (b : Bool) (o : Ordering) (r : Bool) :
    decode ⟨Mag.nonfin b, o⟩ r = none := rfl

/-- What the optional shortest-odd reduction step guarantees. -/
theorem reducePair_spec (r : Bool) (m : ℕ) (e : ℤ) (m1 : ℕ) (e1 : ℤ)
    (hred : (if r then reduceOdd m e else (m, e)) = (m1, e1)) :
    m1 ≤ m ∧ e ≤ e1 ∧ (m1 = 0 → m = 0) ∧ (m = 0 → m1 = 0 ∧ e1 = e)
      ∧ (m ≠ 0 → m < 2 ^ 237 → e1 ≤ e + 236) := by
  cases r with
  | false =>
    rw [if_neg (by simp)] at hred
    obtain ⟨rfl, rfl⟩ := Prod.mk.injEq .. ▸ hred
    exact ⟨le_rfl, le_rfl, fun h => h, fun h => ⟨h, rfl⟩, fun _ _ => by omega⟩
  | true =>
    rw [if_pos rfl] at hred
    rw [reduceOdd] at hred
    have h1 := reduceOddAux_le m m e
    have h2 := le_reduceOddAux_exp m m e
    rw [hred] at h1 h2
    refine ⟨h1, h2, ?_, ?_, ?_⟩
    · intro h0
      by_contra hm0
      exact reduceOddAux_ne_zero hm0 (by rw [hred]; exact h0)
    · intro h0
      subst h0
      cases hred
      exact ⟨rfl, rfl⟩
    · intro hm0 hmb
      have := reduceOddAux_exp_le (f := m) (e := e) hm0 hmb
      rw [hred] at this
      exact this

theorem subRound_skip (o : Ordering) (m : ℕ) {e : ℤ}
    (h : MIN_EXP_SUBNORMAL ≤ e) : subRound o m e = (m, e) := by
  rw [subRound, if_neg (not_lt.mpr h)]

theorem subRound_snd (o : Ordering) (m : ℕ) {e : ℤ}
    (h : e < MIN_EXP_SUBNORMAL) :
    (subRound o m e).2 = MIN_EXP_SUBNORMAL := by
  rw [subRound, if_pos h]

/-- Unfolded form of the subnormal-rounding branch. -/
theorem subRound_pos (o : Ordering) (m : ℕ) {e : ℤ}
    (h : e < MIN_EXP_SUBNORMAL) :
    subRound o m e
      = (if 2 ^ ((MIN_EXP_SUBNORMAL - e).toNat - 1)
              < m % 2 ^ (MIN_EXP_SUBNORMAL - e).toNat
            ∨ (m % 2 ^ (MIN_EXP_SUBNORMAL - e).toNat
                  = 2 ^ ((MIN_EXP_SUBNORMAL - e).toNat - 1)
                ∧ (o ≠ Ordering.gt
                    ∨ m / 2 ^ (MIN_EXP_SUBNORMAL - e).toNat % 2 = 1)) then
          m / 2 ^ (MIN_EXP_SUBNORMAL - e).toNat + 1
        else m / 2 ^ (MIN_EXP_SUBNORMAL - e).toNat,
        MIN_EXP_SUBNORMAL) := by
  rw [subRound, if_pos h]

/-- Common bound: the subnormal-rounded mantissa stays below `2^256`. -/
theorem pipeline_bound {r : Bool} {m : ℕ} {e : ℤ} {m1 : ℕ} {e1 : ℤ}
    (o : Ordering) (hm : m < 2 ^ 237)
    (hred : (if r then reduceOdd m e else (m, e)) = (m1, e1)) :
    (subRound o m1 e1).1 < 2 ^ 256 := by
  have hle := (reducePair_spec r m e m1 e1 hred).1
  have hsub := subRound_fst_le o m1 e1
  have hpow : (2 : ℕ) ^ 237 + 1 ≤ 2 ^ 256 := by norm_num
  omega

/-- Shared core of the subnormal-branch theorems: when the overflow check
does not fire and the (optionally reduced) exponent lies under the grid,
`decode` returns `MIN_EXP_SUBNORMAL` together with the tie-broken shifted
mantissa `M`, provided `M` is nonzero. -/
theorem decode_subnormal_aux (neg : Bool) (m m1 M : ℕ) (e e1 : ℤ)
    (o : Ordering) (r : Bool)
    (hm : m < 2 ^ 237)
    (hov : e ≤ EMAX - PM1)
    (hred : (if r then reduceOdd m e else (m, e)) = (m1, e1))
    (hsub : e1 < MIN_EXP_SUBNORMAL)
    (hM : M = if 2 ^ ((MIN_EXP_SUBNORMAL - e1).toNat - 1)
            < m1 % 2 ^ (MIN_EXP_SUBNORMAL - e1).toNat
          ∨ (m1 % 2 ^ (MIN_EXP_SUBNORMAL - e1).toNat
                = 2 ^ ((MIN_EXP_SUBNORMAL - e1).toNat - 1)
              ∧ (o ≠ Ordering.gt
                  ∨ m1 / 2 ^ (MIN_EXP_SUBNORMAL - e1).toNat % 2 = 1)) then
        m1 / 2 ^ (MIN_EXP_SUBNORMAL - e1).toNat + 1
      else m1 / 2 ^ (MIN_EXP_SUBNORMAL - e1).toNat)
    (hMnz : M ≠ 0) :
    decode ⟨Mag.fin neg m e, o⟩ r
      = some (if neg then 1 else 0, MIN_EXP_SUBNORMAL,
          M / 2 ^ 128, M % 2 ^ 128) := by
  have hsr : subRound o m1 e1 = (M, MIN_EXP_SUBNORMAL) := by
    rw [subRound_pos o m1 hsub, ← hM]
  have hbd : (subRound o m1 e1).1 < 2 ^ 256 := pipeline_bound o hm hred
  rw [hsr] at hbd
  rw [decode_fin, if_neg (not_lt.mpr hov), hred, hsr]
  simp only [hMnz, if_false, hbd, if_true, reduceCtorEq]

/-! ### Claim theorems -/

/-- C1.  In `decode`, a finite nonzero value whose (optionally reduced)
exponent falls below `MIN_EXP_SUBNORMAL` (and which is not caught by the
overflow check) is rounded onto the subnormal grid: with
`shift = MIN_EXP_SUBNORMAL - e1`, `rem = m1 mod 2^shift`,
`tie = 2^(shift-1)` and `q = m1 / 2^shift` (post-shift mantissa), the
mantissa is `q + 1` exactly when `rem > tie`, or `rem = tie` and (the
witness is not GREATER or `q` is odd); otherwise `q`.  Amended versus the
claim as stated: the result exponent is `MIN_EXP_SUBNORMAL` only provided
the rounded mantissa `M` is nonzero — when `M = 0` decode returns the zero
triple `(sign, 0, (0, 0))` instead (see the counterexample). -/
theorem decode_subnormal_round (neg : Bool) (m m1 M : ℕ) (e e1 : ℤ)
    (o : Ordering) (r : Bool)
    (hm : m < 2 ^ 237)
    (hov : e ≤ EMAX - PM1)
    (hred : (if r then reduceOdd m e else (m, e)) = (m1, e1))
    (hsub : e1 < MIN_EXP_SUBNORMAL)
    (hM : M = if 2 ^ ((MIN_EXP_SUBNORMAL - e1).toNat - 1)
            < m1 % 2 ^ (MIN_EXP_SUBNORMAL - e1).toNat
          ∨ (m1 % 2 ^ (MIN_EXP_SUBNORMAL - e1).toNat
                = 2 ^ ((MIN_EXP_SUBNORMAL - e1).toNat - 1)
              ∧ (o ≠ Ordering.gt
                  ∨ m1 / 2 ^ (MIN_EXP_SUBNORMAL - e1).toNat % 2 = 1)) then
        m1 / 2 ^ (MIN_EXP_SUBNORMAL - e1).toNat + 1
      else m1 / 2 ^ (MIN_EXP_SUBNORMAL - e1).toNat)
    (hMnz : M ≠ 0) :
    decode ⟨Mag.fin neg m e, o⟩ r
      = some (if neg then 1 else 0, MIN_EXP_SUBNORMAL,
          M / 2 ^ 128, M % 2 ^ 128) :=
  decode_subnormal_aux neg m m1 M e e1 o r hm hov hred hsub hM hMnz

/-- C1 counterexample.  The claim as stated says the result exponent is
`MIN_EXP_SUBNORMAL` whenever a finite nonzero value is forced onto the
subnormal grid.  The value `2^(MIN_EXP_SUBNORMAL - 2)` (mantissa 1 at
exponent `MIN_EXP_SUBNORMAL - 2 < MIN_EXP_SUBNORMAL`, witness EQUAL) is
nonzero and is forced onto the grid, but its rounded mantissa is zero, so
`decode` returns the zero triple with exponent `0`, not
`MIN_EXP_SUBNORMAL`. -/
theorem decode_subnormal_round_cex :
    decode ⟨Mag.fin false 1 (MIN_EXP_SUBNORMAL - 2), Ordering.eq⟩ false
        = some (0, 0, 0, 0)
      ∧ (0 : ℤ) ≠ MIN_EXP_SUBNORMAL := by
  constructor
  · decide
  · decide

/-- C1 witness: the theorem applied at the concrete input `3 * 2^(-262379)`
(mantissa 3 one place under the grid, witness EQUAL, reduce = false):
`shift = 1`, `rem = 1 = tie`, `q = 1`, witness ≠ GREATER so the mantissa is
incremented to 2. -/
theorem decode_subnormal_round_wit :
    decode ⟨Mag.fin false 3 (MIN_EXP_SUBNORMAL - 1), Ordering.eq⟩ false
      = some (0, MIN_EXP_SUBNORMAL, 0, 2) := by
  have h := decode_subnormal_round false 3 3 2 (MIN_EXP_SUBNORMAL - 1)
    (MIN_EXP_SUBNORMAL - 1) Ordering.eq false (by norm_num)
    (by decide) (by decide) (by decide) (by decide) (by decide)
  simpa using h

/-- C2 (amended).  At an exact tie of the subnormal rounding stage
(`rem = tie`), the code increments the post-shift mantissa `q`
unconditionally when the witness is LESS or EQUAL, and exactly when `q` is
odd when the witness is GREATER.  (The claim as stated — GREATER ties never
round up, LESS/EQUAL ties round to even — is refuted by the
counterexample.) -/
theorem decode_subnormal_tie (neg : Bool) (m m1 M : ℕ) (e e1 : ℤ)
    (o : Ordering) (r : Bool)
    (hm : m < 2 ^ 237)
    (hov : e ≤ EMAX - PM1)
    (hred : (if r then reduceOdd m e else (m, e)) = (m1, e1))
    (hsub : e1 < MIN_EXP_SUBNORMAL)
    (hrem : m1 % 2 ^ (MIN_EXP_SUBNORMAL - e1).toNat
      = 2 ^ ((MIN_EXP_SUBNORMAL - e1).toNat - 1))
    (hM : M = if o = Ordering.gt then
        (if m1 / 2 ^ (MIN_EXP_SUBNORMAL - e1).toNat % 2 = 1 then
          m1 / 2 ^ (MIN_EXP_SUBNORMAL - e1).toNat + 1
        else m1 / 2 ^ (MIN_EXP_SUBNORMAL - e1).toNat)
      else m1 / 2 ^ (MIN_EXP_SUBNORMAL - e1).toNat + 1)
    (hMnz : M ≠ 0) :
    decode ⟨Mag.fin neg m e, o⟩ r
      = some (if neg then 1 else 0, MIN_EXP_SUBNORMAL,
          M / 2 ^ 128, M % 2 ^ 128) := by
  refine decode_subnormal_aux neg m m1 M e e1 o r hm hov hred hsub ?_ hMnz
  rw [hrem, hM]
  by_cases hgt : o = Ordering.gt
  · by_cases hodd : m1 / 2 ^ (MIN_EXP_SUBNORMAL - e1).toNat % 2 = 1
    · rw [if_pos hgt, if_pos hodd,
        if_pos (Or.inr ⟨rfl, Or.inr hodd⟩)]
    · rw [if_pos hgt, if_neg hodd, if_neg]
      rintro (hlt | ⟨-, hone | hodd2⟩)
      · exact absurd hlt (lt_irrefl _)
      · exact hone hgt
      · exact hodd hodd2
  · rw [if_neg hgt, if_pos (Or.inr ⟨rfl, Or.inl hgt⟩)]

/-- C2 counterexample.  Both halves of the claim fail on the code.
`3 * 2^(MIN_EXP_SUBNORMAL - 1)` is an exact subnormal tie (halfway between
`1 * 2^MIN_EXP_SUBNORMAL` and `2 * 2^MIN_EXP_SUBNORMAL`); with witness
GREATER the post-shift mantissa 1 is odd and the code rounds UP to 2,
although the claim says a GREATER tie is never rounded up (it predicts
mantissa 1).  `5 * 2^(MIN_EXP_SUBNORMAL - 1)` is an exact tie with
post-shift mantissa 2 (even); with witness EQUAL the code rounds UP to 3,
although ties-to-even (as the claim states for LESS/EQUAL) predicts the
even mantissa 2. -/
theorem decode_subnormal_tie_cex :
    (decode ⟨Mag.fin false 3 (MIN_EXP_SUBNORMAL - 1), Ordering.gt⟩ false
        = some (0, MIN_EXP_SUBNORMAL, 0, 2)
      ∧ some ((0 : ℕ), MIN_EXP_SUBNORMAL, (0 : ℕ), (2 : ℕ))
          ≠ some (0, MIN_EXP_SUBNORMAL, 0, 1))
    ∧ (decode ⟨Mag.fin false 5 (MIN_EXP_SUBNORMAL - 1), Ordering.eq⟩ false
        = some (0, MIN_EXP_SUBNORMAL, 0, 3)
      ∧ some ((0 : ℕ), MIN_EXP_SUBNORMAL, (0 : ℕ), (3 : ℕ))
          ≠ some (0, MIN_EXP_SUBNORMAL, 0, 2)) := by
  refine ⟨⟨?_, ?_⟩, ?_, ?_⟩ <;> decide

/-- C2 witness: the amended theorem applied at the tie `5 * 2^(-262379)`
with witness GREATER: the post-shift mantissa 2 is even, so it is not
incremented. -/
theorem decode_subnormal_tie_wit :
    decode ⟨Mag.fin false 5 (MIN_EXP_SUBNORMAL - 1), Ordering.gt⟩ false
      = some (0, MIN_EXP_SUBNORMAL, 0, 2) := by
  have h := decode_subnormal_tie false 5 5 2 (MIN_EXP_SUBNORMAL - 1)
    (MIN_EXP_SUBNORMAL - 1) Ordering.gt false (by norm_num)
    (by decide) (by decide) (by decide) (by decide) (by decide) (by decide)
  simpa using h

theorem EMAX_val : EMAX = 262143 := rfl

theorem PM1_val : PM1 = 236 := rfl

theorem EMIN_val : EMIN = -262142 := by decide

theorem MIN_val : MIN_EXP_SUBNORMAL = -262378 := by decide

/-- C5 (amended).  `decode` returns the overflow sentinel
`(sign, EMAX+1, (0,0))` exactly when the raw decomposition exponent `e`
exceeds `EMAX - (P-1)`; for a full-precision value (mantissa of exactly
`P = 237` bits) this is `lead_exp = e + bits(m) - 1 > EMAX` — the boundary
sits at `EMAX`, not at `EMAX - (P-1)` as the claim states (see the
counterexample): a value whose leading-bit exponent equals `EMAX` decodes
normally and one whose leading-bit exponent is `EMAX + 1` decodes to the
sentinel. -/
theorem decode_overflow_boundary (neg : Bool) (m : ℕ) (e : ℤ) (o : Ordering)
    (r : Bool) (hsz : bits m = 237) :
    decode ⟨Mag.fin neg m e, o⟩ r
        = some (if neg then 1 else 0, EMAX + 1, 0, 0)
      ↔ EMAX < e + (bits m : ℤ) - 1 := by
  rw [hsz]
  have hiff : (EMAX - PM1 < e) ↔ (EMAX < e + ((237 : ℕ) : ℤ) - 1) := by
    rw [EMAX_val, PM1_val]
    omega
  constructor
  · intro hdec
    by_contra hnot
    have hov : ¬(EMAX - PM1 < e) := fun hc => hnot (hiff.mp hc)
    rw [decode_fin, if_neg hov] at hdec
    set pf := (if r then reduceOdd m e else (m, e)) with hpf
    set q1 := subRound o pf.1 pf.2 with hq1
    by_cases h0 : q1.1 = 0
    · rw [if_pos h0] at hdec
      simp only [Option.some.injEq, Prod.mk.injEq] at hdec
      have h2 := hdec.2.1
      rw [EMAX_val] at h2
      exact absurd h2 (by norm_num)
    · rw [if_neg h0] at hdec
      by_cases hlt : q1.1 < 2 ^ 256
      · rw [if_pos hlt] at hdec
        simp only [Option.some.injEq, Prod.mk.injEq] at hdec
        obtain ⟨-, -, hh, hl⟩ := hdec
        have hd := Nat.div_add_mod q1.1 (2 ^ 128)
        rw [hh, hl] at hd
        simp only [mul_zero, add_zero] at hd
        exact h0 hd.symm
      · rw [if_neg hlt] at hdec
        exact Option.noConfusion hdec
  · intro hgt
    rw [decode_fin, if_pos (hiff.mpr hgt)]

/-- C5 counterexample.  The value `2^261908` (precision-237 decomposition:
mantissa `2^236`, exponent `261672`) has leading-bit exponent
`261908 > EMAX - (P-1) = 261907`, so the claim as stated predicts the
overflow sentinel; the code decodes it normally to
`(0, 261672, (2^108, 0))`. -/
theorem decode_overflow_boundary_cex :
    decode ⟨Mag.fin false (2 ^ 236) 261672, Ordering.eq⟩ false
        = some (0, 261672, 2 ^ 108, 0)
    ∧ EMAX - PM1 < 261672 + (bits (2 ^ 236) : ℤ) - 1
    ∧ some ((0 : ℕ), (261672 : ℤ), 2 ^ 108, (0 : ℕ))
        ≠ some (0, EMAX + 1, 0, 0) := by
  refine ⟨?_, ?_, ?_⟩ <;> decide

/-- C5 witness: the amended theorem applied at `2^262144` (mantissa
`2^236`, exponent `261908`), whose leading-bit exponent `262144 = EMAX + 1`
crosses the boundary, giving the sentinel. -/
theorem decode_overflow_boundary_wit :
    bits (2 ^ 236) = 237
    ∧ decode ⟨Mag.fin false (2 ^ 236) 261908, Ordering.eq⟩ false
        = some (0, EMAX + 1, 0, 0) := by
  refine ⟨by decide, ?_⟩
  have h := (decode_overflow_boundary false (2 ^ 236) 261908 Ordering.eq false
    (by decide)).mpr (by decide)
  simpa using h

/-- C7.  `decode` terminates abnormally (returns `none`, modelling the
panic) exactly on non-finite magnitudes; every finite value — its mantissa
bounded by the precision-237 representation invariant `magBound` — decodes
to a triple, zero included. -/
theorem decode_total_iff_finite (v : FP237) (r : Bool) (hv : magBound v) :
    decode v r = none ↔ v.mag.isFin = false := by
  obtain ⟨mg, o⟩ := v
  cases mg with
  | nonfin b => simp [decode_nonfin, Mag.isFin]
  | fin neg m e =>
    have hvb : m < 2 ^ 237 := hv
    simp only [Mag.isFin, Bool.true_eq_false, iff_false]
    intro hdec
    rw [decode_fin] at hdec
    set pf := (if r then reduceOdd m e else (m, e)) with hpf
    set q1 := subRound o pf.1 pf.2 with hq1
    have hbd : q1.1 < 2 ^ 256 := by
      rw [hq1]
      exact pipeline_bound o hvb (by rw [← hpf])
    by_cases hov : EMAX - PM1 < e
    · rw [if_pos hov] at hdec
      exact Option.noConfusion hdec
    · rw [if_neg hov] at hdec
      by_cases h0 : q1.1 = 0
      · rw [if_pos h0] at hdec
        exact Option.noConfusion hdec
      · rw [if_neg h0, if_pos hbd] at hdec
        exact Option.noConfusion hdec

/-- C7 witness: the theorem applied to the finite value `141 * 2^(-3)`
(which decodes to a triple) and evaluated. -/
theorem decode_total_iff_finite_wit :
    magBound ⟨Mag.fin false 141 (-3), Ordering.eq⟩
    ∧ ((decode ⟨Mag.fin false 141 (-3), Ordering.eq⟩ true = none)
        ↔ Mag.isFin (Mag.fin false 141 (-3)) = false) := by
  have hb : magBound ⟨Mag.fin false 141 (-3), Ordering.eq⟩ := by
    show (141 : ℕ) < 2 ^ 237
    norm_num
  exact ⟨hb, decode_total_iff_finite ⟨Mag.fin false 141 (-3), Ordering.eq⟩ true hb⟩

/-- C8.  For every finite input (under the precision-237 mantissa bound)
and both reduce modes, the decoded triple satisfies the target-triple
invariants: the sign is the input sign bit (0 or 1); the exponent lies in
`[MIN_EXP_SUBNORMAL, EMAX+1]`; whenever the pipeline mantissa (after
optional reduction and subnormal rounding) is zero on the non-overflow
path, the result is exactly `(sign, 0, (0,0))` with the input sign
preserved; and the 256-bit significand is zero only for the zero result and
the overflow sentinel. -/
theorem decode_triple_invariants (neg : Bool) (m : ℕ) (e : ℤ) (o : Ordering)
    (r : Bool) (hm : m < 2 ^ 237) (s' : ℕ) (e' : ℤ) (hi lo : ℕ)
    (hdec : decode ⟨Mag.fin neg m e, o⟩ r = some (s', e', hi, lo)) :
    s' = (if neg then 1 else 0)
    ∧ MIN_EXP_SUBNORMAL ≤ e' ∧ e' ≤ EMAX + 1
    ∧ (e ≤ EMAX - PM1 →
        (subRound o (if r then reduceOdd m e else (m, e)).1
          (if r then reduceOdd m e else (m, e)).2).1 = 0 →
        (s', e', hi, lo) = (if neg then 1 else 0, 0, 0, 0))
    ∧ (hi = 0 ∧ lo = 0 → e' = 0 ∨ e' = EMAX + 1) := by
  rw [decode_fin] at hdec
  set pf := (if r then reduceOdd m e else (m, e)) with hpf
  set q1 := subRound o pf.1 pf.2 with hq1
  have hspec := reducePair_spec r m e pf.1 pf.2 (by rw [← hpf])
  by_cases hov : EMAX - PM1 < e
  · rw [if_pos hov] at hdec
    simp only [Option.some.injEq, Prod.mk.injEq] at hdec
    obtain ⟨hs, he, hh, hl⟩ := hdec
    refine ⟨hs.symm, ?_, ?_, ?_, ?_⟩
    · rw [← he, MIN_val, EMAX_val]
      norm_num
    · rw [← he]
    · intro hle _
      exact absurd hov (not_lt.mpr hle)
    · intro _
      right
      exact he.symm
  · rw [if_neg hov] at hdec
    by_cases h0 : q1.1 = 0
    · rw [if_pos h0] at hdec
      simp only [Option.some.injEq, Prod.mk.injEq] at hdec
      obtain ⟨hs, he, hh, hl⟩ := hdec
      refine ⟨hs.symm, ?_, ?_, ?_, ?_⟩
      · rw [← he, MIN_val]
        norm_num
      · rw [← he, EMAX_val]
        norm_num
      · intro _ _
        rw [← hs, ← he, ← hh, ← hl]
      · intro _
        left
        exact he.symm
    · by_cases hlt : q1.1 < 2 ^ 256
      · rw [if_neg h0, if_pos hlt] at hdec
        simp only [Option.some.injEq, Prod.mk.injEq] at hdec
        obtain ⟨hs, he, hh, hl⟩ := hdec
        refine ⟨hs.symm, ?_, ?_, ?_, ?_⟩
        · by_cases hsb : pf.2 < MIN_EXP_SUBNORMAL
          · rw [← he, hq1, subRound_snd _ _ hsb]
          · rw [← he, hq1, subRound_skip _ _ (not_lt.mp hsb)]
            exact not_lt.mp hsb
        · by_cases hsb : pf.2 < MIN_EXP_SUBNORMAL
          · rw [← he, hq1, subRound_snd _ _ hsb, MIN_val, EMAX_val]
            norm_num
          · rw [← he, hq1, subRound_skip _ _ (not_lt.mp hsb)]
            have hm0 : m ≠ 0 := by
              intro hz
              apply h0
              rw [hq1, subRound_skip _ _ (not_lt.mp hsb)]
              exact (hspec.2.2.2.1 hz).1
            have hexp := hspec.2.2.2.2 hm0 hm
            rw [not_lt, EMAX_val, PM1_val] at hov
            rw [EMAX_val]
            omega
        · intro _ hz
          exact absurd hz h0
        · intro hz
          exfalso
          rw [hz.1] at hh
          rw [hz.2] at hl
          have hd := Nat.div_add_mod q1.1 (2 ^ 128)
          rw [hh, hl] at hd
          simp only [mul_zero, add_zero] at hd
          exact h0 hd.symm
      · rw [if_neg h0, if_neg hlt] at hdec
        exact Option.noConfusion hdec

/-- C8 witness: the theorem applied to `-(5 * 2^(-262380))`, which rounds
onto the subnormal grid to `(1, MIN_EXP_SUBNORMAL, (0, 1))`, with every
invariant evaluated. -/
theorem decode_triple_invariants_wit :
    (1 : ℕ) = (if true then 1 else 0)
    ∧ MIN_EXP_SUBNORMAL ≤ MIN_EXP_SUBNORMAL ∧ MIN_EXP_SUBNORMAL ≤ EMAX + 1
    ∧ ((-262380 : ℤ) ≤ EMAX - PM1 →
        (subRound Ordering.eq
          (if false then reduceOdd 5 (-262380) else (5, -262380)).1
          (if false then reduceOdd 5 (-262380) else (5, -262380)).2).1 = 0 →
        ((1 : ℕ), MIN_EXP_SUBNORMAL, (0 : ℕ), (1 : ℕ))
          = (if true then 1 else 0, 0, 0, 0))
    ∧ ((0 : ℕ) = 0 ∧ (1 : ℕ) = 0
        → MIN_EXP_SUBNORMAL = 0 ∨ MIN_EXP_SUBNORMAL = EMAX + 1) :=
  decode_triple_invariants true 5 (-262380) Ordering.eq false (by norm_num)
    1 MIN_EXP_SUBNORMAL 0 1 (by decide)

/-- C3 (amended).  For every exponent `t` in the NORMAL range
`[EMIN, EMAX]` and every outcome of the draws, the sampled value is exact
(witness EQUAL) and `decode(.., reduce = false)` reproduces the drawn sign
`s` and 256-bit significand `(h + HI_HIDDEN_BIT, l)` bit for bit — a full
`P`-bit significand with the hidden bit set.  The decoded exponent is
`t - (P-1)` when `t ≥ 236` (adding back the normalization offset `P-1`
recovers `t`), but `t - (P-1) + 1` when `t < 236`: the `t < 0`
materialisation path of the source multiplies by `Float::i_exp(2, t)` =
`2^(t+1)`, one binary place higher, so adding back `P-1` recovers `t + 1`
there.  The claim as stated — exponent `t` for the whole range and bit
reproduction down to `MIN_EXP_SUBNORMAL` — fails in both respects (see the
counterexample). -/
theorem decode_random_normal (s : ℕ) (t : ℤ) (h l : ℕ)
    (hs : s ≤ 1) (ht1 : EMIN ≤ t) (ht2 : t ≤ EMAX)
    (hh : h ≤ HI_MAX) (hl : l < 2 ^ 128) :
    decode (random_from_exp_range s t h l) false
      = some (s, (if t - PM1 < 0 then t - PM1 + 1 else t - PM1),
          h + HI_HIDDEN_BIT, l)
    ∧ (random_from_exp_range s t h l).o = Ordering.eq := by
  have hhb : h + HI_HIDDEN_BIT < 2 ^ 109 := by
    have : HI_MAX + HI_HIDDEN_BIT < 2 ^ 109 := by norm_num [HI_MAX, HI_HIDDEN_BIT]
    omega
  have hc_lo : 2 ^ 236 ≤ (h + HI_HIDDEN_BIT) * 2 ^ 128 + l := by
    have h1 : 2 ^ 108 ≤ h + HI_HIDDEN_BIT := by
      have : (2 : ℕ) ^ 108 = HI_HIDDEN_BIT := rfl
      omega
    calc (2 : ℕ) ^ 236 = 2 ^ 108 * 2 ^ 128 := by norm_num
      _ ≤ (h + HI_HIDDEN_BIT) * 2 ^ 128 := Nat.mul_le_mul_right _ h1
      _ ≤ (h + HI_HIDDEN_BIT) * 2 ^ 128 + l := Nat.le_add_right _ _
  have hc_hi : (h + HI_HIDDEN_BIT) * 2 ^ 128 + l < 2 ^ 237 := by
    have h1 : (h + HI_HIDDEN_BIT) * 2 ^ 128 ≤ (2 ^ 109 - 1) * 2 ^ 128 :=
      Nat.mul_le_mul_right _ (by omega)
    have h2 : (2 ^ 109 - 1) * 2 ^ 128 + 2 ^ 128 = 2 ^ 237 := by norm_num
    omega
  have hbits : bits ((h + HI_HIDDEN_BIT) * 2 ^ 128 + l) = 237 :=
    bits_eq_of hc_lo hc_hi
  have hcne : (h + HI_HIDDEN_BIT) * 2 ^ 128 + l ≠ 0 := by
    have : (0 : ℕ) < 2 ^ 236 := by positivity
    omega
  have hrnd : rnd ((h + HI_HIDDEN_BIT) * 2 ^ 128 + l) P
      = ((h + HI_HIDDEN_BIT) * 2 ^ 128 + l, Ordering.eq) :=
    rnd_exact (by rw [hbits]; decide)
  have hnorm : norm237 ((h + HI_HIDDEN_BIT) * 2 ^ 128 + l)
      (if t - PM1 < 0 then t - PM1 + 1 else t - PM1)
      = ((h + HI_HIDDEN_BIT) * 2 ^ 128 + l,
          if t - PM1 < 0 then t - PM1 + 1 else t - PM1) := by
    rw [norm237, if_neg hcne, if_pos (le_of_eq hbits), hbits]
    norm_num
  have hrfe : random_from_exp_range s t h l
      = ⟨Mag.fin (s == 1) ((h + HI_HIDDEN_BIT) * 2 ^ 128 + l)
          (if t - PM1 < 0 then t - PM1 + 1 else t - PM1),
          Ordering.eq⟩ := by
    rw [random_from_exp_range]
    simp only [if_pos ht1, hrnd, hnorm]
  have hsign : (if (s == 1) = true then (1 : ℕ) else 0) = s := by
    interval_cases s <;> simp
  have hPM := PM1_val
  have hEX := EMAX_val
  have hEN : EMIN = -262142 := EMIN_val
  have hMN := MIN_val
  refine ⟨?_, by rw [hrfe]⟩
  rw [hrfe, decode_fin]
  have hov : ¬(EMAX - PM1 < (if t - PM1 < 0 then t - PM1 + 1 else t - PM1)) := by
    split_ifs <;> omega
  rw [if_neg hov]
  have hskip : subRound Ordering.eq
      (if false then reduceOdd ((h + HI_HIDDEN_BIT) * 2 ^ 128 + l)
          (if t - PM1 < 0 then t - PM1 + 1 else t - PM1)
        else ((h + HI_HIDDEN_BIT) * 2 ^ 128 + l,
          if t - PM1 < 0 then t - PM1 + 1 else t - PM1)).1
      (if false then reduceOdd ((h + HI_HIDDEN_BIT) * 2 ^ 128 + l)
          (if t - PM1 < 0 then t - PM1 + 1 else t - PM1)
        else ((h + HI_HIDDEN_BIT) * 2 ^ 128 + l,
          if t - PM1 < 0 then t - PM1 + 1 else t - PM1)).2
      = ((h + HI_HIDDEN_BIT) * 2 ^ 128 + l,
          if t - PM1 < 0 then t - PM1 + 1 else t - PM1) := by
    simp only [if_neg Bool.false_ne_true]
    refine subRound_skip _ _ ?_
    split_ifs <;> omega
  rw [hskip]
  have hbd : (h + HI_HIDDEN_BIT) * 2 ^ 128 + l < 2 ^ 256 := by
    have : (2 : ℕ) ^ 237 < 2 ^ 256 := by norm_num
    omega
  have hdiv : ((h + HI_HIDDEN_BIT) * 2 ^ 128 + l) / 2 ^ 128 = h + HI_HIDDEN_BIT := by
    rw [mul_comm, Nat.mul_add_div (by positivity), Nat.div_eq_of_lt hl]
    omega
  have hmod : ((h + HI_HIDDEN_BIT) * 2 ^ 128 + l) % 2 ^ 128 = l := by
    rw [mul_comm, Nat.mul_add_mod]
    exact Nat.mod_eq_of_lt hl
  simp only [hcne, if_false]
  rw [if_pos hbd, hdiv, hmod, hsign]

/-- C3 counterexample.  Two failures of the claim as stated.  Subnormal
range: with draws `s = 0, t = MIN_EXP_SUBNORMAL + 1, h = 0, l = 1` the
sampler materialises `1 * 2^(t+1)` exactly (witness EQUAL), but decode
returns exponent `MIN_EXP_SUBNORMAL ≠ t` and significand `4`, not the
drawn significand bits `(0, 1)`.  Normal range with `t < 236`: with draws
`s = 0, t = 0, h = 0, l = 0` the `Float::i_exp(2, t)` off-by-one gives
decoded exponent `-235`, and `-235 + (P-1) = 1 ≠ 0 = t`, so the exponent
round-trip the claim asserts for every supported exponent fails. -/
theorem decode_random_roundtrip_cex :
    (decode (random_from_exp_range 0 (MIN_EXP_SUBNORMAL + 1) 0 1) false
        = some (0, MIN_EXP_SUBNORMAL, 0, 4)
      ∧ (random_from_exp_range 0 (MIN_EXP_SUBNORMAL + 1) 0 1).o = Ordering.eq
      ∧ MIN_EXP_SUBNORMAL ≠ MIN_EXP_SUBNORMAL + 1
      ∧ (4 : ℕ) ≠ 1)
    ∧ (decode (random_from_exp_range 0 0 0 0) false
        = some (0, -235, 2 ^ 108, 0)
      ∧ (-235 : ℤ) + PM1 ≠ 0) := by
  refine ⟨⟨?_, ?_, ?_, ?_⟩, ?_, ?_⟩ <;> decide

/-- C3 witness: the amended theorem applied at the draws
`s = 0, t = 300, h = 0, l = 0` (exponent `t - (P-1)`, since `300 ≥ 236`)
and `s = 1, t = 0, h = 5, l = 7` (exponent `t - (P-1) + 1`, since
`0 < 236`). -/
theorem decode_random_normal_wit :
    (decode (random_from_exp_range 0 300 0 0) false
        = some (0, (if (300 : ℤ) - PM1 < 0 then 300 - PM1 + 1 else 300 - PM1),
            0 + HI_HIDDEN_BIT, 0)
      ∧ (random_from_exp_range 0 300 0 0).o = Ordering.eq)
    ∧ (decode (random_from_exp_range 1 0 5 7) false
        = some (1, (if (0 : ℤ) - PM1 < 0 then 0 - PM1 + 1 else 0 - PM1),
            5 + HI_HIDDEN_BIT, 7)
      ∧ (random_from_exp_range 1 0 5 7).o = Ordering.eq) :=
  ⟨decode_random_normal 0 300 0 0 (by norm_num) (by decide) (by decide)
      (by norm_num [HI_MAX, HI_HIDDEN_BIT]) (by norm_num),
    decode_random_normal 1 0 5 7 (by norm_num) (by decide) (by decide)
      (by norm_num [HI_MAX, HI_HIDDEN_BIT]) (by norm_num)⟩

/-- C4 (code bug).  The claim says the sampler's witness is EQUAL in both
branches.  In the subnormal branch the precision is computed as
`msb = 128 - h.leading_zeros()` when `h != 0` (src/lib.rs:187-192) — the
`128`/`256` constants are swapped between the two arms, so for `h ≠ 0` the
value is materialised at only `bits h` significant bits and the 128 low
bits are rounded away.  At the draw `s = 0, t = MIN_EXP_SUBNORMAL, h = 1,
l = 1` (all draws in range: `1 ≤ HI_MAX`, `1 < 2^128`) the stored witness
is LESS, not EQUAL. -/
theorem random_subnormal_witness_cex :
    (random_from_exp_range 0 MIN_EXP_SUBNORMAL 1 1).o = Ordering.lt
    ∧ Ordering.lt ≠ Ordering.eq
    ∧ (1 : ℕ) ≤ HI_MAX ∧ (1 : ℕ) < 2 ^ 128 := by
  refine ⟨?_, ?_, ?_, ?_⟩ <;> decide

/-- C9.  The parsed literal "17.625" decodes with `reduce = true` to
`(0, -3, (0, 141))`, and the exactly-constructed `2^(-262378)` decodes to
`(0, -262378, (0, 1))`, the smallest positive subnormal quantum. -/
theorem decode_concrete_scenarios :
    decode parsed_17_625 true = some (0, -3, 0, 141)
    ∧ decode pow2_min_subnormal true = some (0, MIN_EXP_SUBNORMAL, 0, 1) := by
  refine ⟨?_, ?_⟩ <;> decide

/-- C6 (amended).  The arithmetic wrappers whose exact result is dyadic —
add, subtract, multiply, fused-multiply-add and sum-of-squares — compute
the exact result, round it once to precision `P` with round-to-nearest
ties-to-even (`roundP`/`rnd`), and record a faithful witness: the stored
ordering is LESS/EQUAL/GREATER exactly as the rounded value is
below/equal/above the exact result.  Division, remainder, sin, cos, tan
and cot store the oracle's correctly-rounded result and its ternary
unchanged, so they preserve witness faithfulness: whenever the oracle's
pair is faithful to the exact result (the spec treats the oracle as a
correctly-rounding black box), the wrapper's output is too.  `sqrt`,
however, always records EQUAL, discarding the rounding direction
(refuting the claim as stated — see the counterexample). -/
theorem arithmetic_witness_faithful :
    (∀ (n1 : Bool) (m1 : ℕ) (e1 : ℤ) (o1 : Ordering)
        (n2 : Bool) (m2 : ℕ) (e2 : ℤ) (o2 : Ordering),
      faithful (FP237.add ⟨Mag.fin n1 m1 e1, o1⟩ ⟨Mag.fin n2 m2 e2, o2⟩)
        (valM (Mag.fin n1 m1 e1) + valM (Mag.fin n2 m2 e2)))
    ∧ (∀ (n1 : Bool) (m1 : ℕ) (e1 : ℤ) (o1 : Ordering)
        (n2 : Bool) (m2 : ℕ) (e2 : ℤ) (o2 : Ordering),
      faithful (FP237.sub ⟨Mag.fin n1 m1 e1, o1⟩ ⟨Mag.fin n2 m2 e2, o2⟩)
        (valM (Mag.fin n1 m1 e1) - valM (Mag.fin n2 m2 e2)))
    ∧ (∀ (n1 : Bool) (m1 : ℕ) (e1 : ℤ) (o1 : Ordering)
        (n2 : Bool) (m2 : ℕ) (e2 : ℤ) (o2 : Ordering),
      faithful (FP237.mul ⟨Mag.fin n1 m1 e1, o1⟩ ⟨Mag.fin n2 m2 e2, o2⟩)
        (valM (Mag.fin n1 m1 e1) * valM (Mag.fin n2 m2 e2)))
    ∧ (∀ (n1 : Bool) (m1 : ℕ) (e1 : ℤ) (o1 : Ordering)
        (n2 : Bool) (m2 : ℕ) (e2 : ℤ) (o2 : Ordering)
        (n3 : Bool) (m3 : ℕ) (e3 : ℤ) (o3 : Ordering),
      faithful (FP237.fma ⟨Mag.fin n1 m1 e1, o1⟩ ⟨Mag.fin n2 m2 e2, o2⟩
          ⟨Mag.fin n3 m3 e3, o3⟩)
        (valM (Mag.fin n1 m1 e1) * valM (Mag.fin n2 m2 e2)
          + valM (Mag.fin n3 m3 e3)))
    ∧ (∀ (n1 : Bool) (m1 : ℕ) (e1 : ℤ) (o1 : Ordering)
        (n2 : Bool) (m2 : ℕ) (e2 : ℤ) (o2 : Ordering),
      faithful (FP237.sos ⟨Mag.fin n1 m1 e1, o1⟩ ⟨Mag.fin n2 m2 e2, o2⟩)
        (valM (Mag.fin n1 m1 e1) ^ 2 + valM (Mag.fin n2 m2 e2) ^ 2))
    ∧ (∀ (x y : FP237) (rm : Mag) (ro : Ordering) (z : ℚ),
      faithful ⟨rm, ro⟩ z → faithful (FP237.divFP x y rm ro) z)
    ∧ (∀ (x y : FP237) (rm : Mag) (ro : Ordering) (z : ℚ),
      faithful ⟨rm, ro⟩ z → faithful (FP237.remFP x y rm ro) z)
    ∧ (∀ (x : FP237) (rm : Mag) (ro : Ordering) (z : ℚ),
      faithful ⟨rm, ro⟩ z → faithful (FP237.sinFP x rm ro) z)
    ∧ (∀ (x : FP237) (rm : Mag) (ro : Ordering) (z : ℚ),
      faithful ⟨rm, ro⟩ z → faithful (FP237.cosFP x rm ro) z)
    ∧ (∀ (x : FP237) (rm : Mag) (ro : Ordering) (z : ℚ),
      faithful ⟨rm, ro⟩ z → faithful (FP237.tanFP x rm ro) z)
    ∧ (∀ (x : FP237) (rm : Mag) (ro : Ordering) (z : ℚ),
      faithful ⟨rm, ro⟩ z → faithful (FP237.cotFP x rm ro) z)
    ∧ (∀ (x : FP237) (root : Mag), (FP237.sqrtFP x root).o = Ordering.eq) :=
  ⟨add_faithful, sub_faithful, mul_faithful, fma_faithful, sos_faithful,
    fun _ _ _ _ _ hf => hf, fun _ _ _ _ _ hf => hf, fun _ _ _ _ hf => hf,
    fun _ _ _ _ hf => hf, fun _ _ _ _ hf => hf, fun _ _ _ _ hf => hf,
    fun _ _ => rfl⟩

/-- C6 witness: the theorem applied concretely — the add conjunct at
`1 + 1` (exact, witness EQUAL and faithful), and the div conjunct at the
oracle pair `(1 * 2^(-1), EQUAL)` for `1 / 2`, whose faithfulness it
preserves. -/
theorem arithmetic_witness_faithful_wit :
    faithful (FP237.add ⟨Mag.fin false 1 0, Ordering.eq⟩
        ⟨Mag.fin false 1 0, Ordering.eq⟩)
      (valM (Mag.fin false 1 0) + valM (Mag.fin false 1 0))
    ∧ faithful (FP237.divFP ⟨Mag.fin false 1 0, Ordering.eq⟩
        ⟨Mag.fin false 2 0, Ordering.eq⟩ (Mag.fin false 1 (-1)) Ordering.eq)
      (valM (Mag.fin false 1 (-1))) := by
  have hf : faithful ⟨Mag.fin false 1 (-1), Ordering.eq⟩
      (valM (Mag.fin false 1 (-1))) := by
    rw [faithful]
    refine ⟨?_, ?_, ?_⟩ <;> simp
  exact ⟨arithmetic_witness_faithful.1 false 1 0 Ordering.eq false 1 0 Ordering.eq,
    arithmetic_witness_faithful.2.2.2.2.2.1 _ _ _ _ _ hf⟩

/-- C6 counterexample.  `FP237::sqrt` records the witness EQUAL for every
input and every oracle result, yet at the input 2 the exact square root is
not representable by any finite magnitude: no dyadic value `±c * 2^t`
squares to 2 (√2 is irrational).  Hence whatever correctly-rounded value
the oracle returns for `sqrt(2)`, the stored value differs from the exact
result while the recorded witness claims equality — the claim's witness
discipline fails for `sqrt`. -/
theorem sqrt_witness_cex :
    (∀ (x : FP237) (root : Mag), (FP237.sqrtFP x root).o = Ordering.eq)
    ∧ ∀ (n : Bool) (c : ℕ) (t : ℤ), valM (Mag.fin n c t) ^ 2 ≠ 2 := by
  refine ⟨fun _ _ => rfl, fun n c t h => ?_⟩
  apply irrational_sqrt_two
  refine ⟨|valM (Mag.fin n c t)|, ?_⟩
  rw [Rat.cast_abs, ← Real.sqrt_sq_eq_abs]
  congr 1
  exact_mod_cast h

end Rug237
